import Mathlib

/-!
Shallow embedding of the knowledge-graph retrieval core of the
multimodal_graph_rag repository: the graph built by
`KnowledgeGraphBuilder` (src/knowledge_graph/graph_builder.py), the
hybrid retriever `ContextAwareRetriever`
(src/retrieval/context_retriever.py) and the `ContextAssembler`
(src/retrieval/context_assembler.py).

The graph mirrors a networkx `DiGraph`: an insertion-ordered association
list of node attribute records plus an insertion-ordered list of directed
edges (at most one edge per ordered pair).  External model calls are
parameters of the embedding: `sim` stands for
`1 - scipy.spatial.distance.cosine(query_embedding, node_embedding)`
resp. `sklearn cosine_similarity`, `encode` for the sentence-transformer
encoder, and `ct` for `self.tokenizer.encode` token counting.  Embedding
vectors are lists of rationals.
-/

abbrev NodeId := String

/-- Attribute record of a networkx node as used by this code base.
Every field the Python code ever reads or writes on a node dict is a
separate optional field; an absent key is `none`.  `id` and
`relevance_score` are the two keys written by the assembler. -/
structure NodeAttrs where
  type : Option String
  content : Option String
  entity_type : Option String
  metadata : Option String
  text : Option String
  caption : Option String
  image : Option String
  embedding : Option (List ℚ)
  id : Option String
  relevance_score : Option ℚ
deriving DecidableEq

def NodeAttrs.empty : NodeAttrs :=
  ⟨none, none, none, none, none, none, none, none, none, none⟩

/-- Edge attribute dict: the builder writes `type` (always) and
`confidence` (only for relationship edges). -/
structure EdgeAttrs where
  etype : Option String
  confidence : Option ℚ
deriving DecidableEq

def EdgeAttrs.empty : EdgeAttrs := ⟨none, none⟩

/-- A networkx `DiGraph` as this code base uses it: insertion-ordered
nodes with attribute dicts and insertion-ordered directed edges, at most
one edge per ordered pair of nodes. -/
structure Graph where
  nodes : List (NodeId × NodeAttrs)
  edges : List (NodeId × NodeId × EdgeAttrs)
deriving DecidableEq

def lookupAttrs : List (NodeId × NodeAttrs) → NodeId → Option NodeAttrs
  | [], _ => none
  | p :: ps, n => if p.1 = n then some p.2 else lookupAttrs ps n

/-- `graph.nodes[n]` as a partial lookup (`none` models the `KeyError`). -/
def Graph.attr? (g : Graph) (n : NodeId) : Option NodeAttrs :=
  lookupAttrs g.nodes n

def updateAttrs (l : List (NodeId × NodeAttrs)) (m : NodeId)
    (f : NodeAttrs → NodeAttrs) : List (NodeId × NodeAttrs) :=
  l.map (fun p => if p.1 = m then (p.1, f p.2) else p)

/-- Mutate the attribute dict of an existing node in place (no-op when
the node is absent), as Python statements like `data["id"] = node` do. -/
def Graph.modifyNode (g : Graph) (m : NodeId) (f : NodeAttrs → NodeAttrs) :
    Graph :=
  ⟨updateAttrs g.nodes m f, g.edges⟩

/-- `graph.add_node(n, **attrs)`: merge attributes into an existing node
or append a fresh node at the end of the insertion order. -/
def Graph.upsertNode (g : Graph) (n : NodeId) (f : NodeAttrs → NodeAttrs) :
    Graph :=
  if (g.attr? n).isSome then ⟨updateAttrs g.nodes n f, g.edges⟩
  else ⟨g.nodes ++ [(n, f NodeAttrs.empty)], g.edges⟩

def Graph.ensureNode (g : Graph) (n : NodeId) : Graph :=
  if (g.attr? n).isSome then g else ⟨g.nodes ++ [(n, NodeAttrs.empty)], g.edges⟩

def lookupEdge : List (NodeId × NodeId × EdgeAttrs) → NodeId → NodeId →
    Option EdgeAttrs
  | [], _, _ => none
  | e :: es, u, v => if e.1 = u ∧ e.2.1 = v then some e.2.2 else lookupEdge es u v

/-- `graph.add_edge(u, v, **attrs)`: networkx silently creates missing
endpoint nodes (with empty attribute dicts) and then merges the edge
attributes into the, possibly fresh, edge dict. -/
def Graph.addEdge (g : Graph) (u v : NodeId) (f : EdgeAttrs → EdgeAttrs) :
    Graph :=
  let g1 := (g.ensureNode u).ensureNode v
  if (lookupEdge g1.edges u v).isSome then
    ⟨g1.nodes, g1.edges.map (fun e => if e.1 = u ∧ e.2.1 = v
      then (e.1, e.2.1, f e.2.2) else e)⟩
  else ⟨g1.nodes, g1.edges ++ [(u, v, f EdgeAttrs.empty)]⟩

/-- `graph.neighbors(n)` of a networkx `DiGraph`: the successors, i.e.
targets of out-going edges only, in edge insertion order. -/
def successors (g : Graph) (n : NodeId) : List NodeId :=
  g.edges.filterMap (fun e => if e.1 = n then some e.2.1 else none)

/-- Sources of in-coming edges; the retriever never calls this, it is
only needed to state the either-direction reading of the spec. -/
def predecessors (g : Graph) (n : NodeId) : List NodeId :=
  g.edges.filterMap (fun e => if e.2.1 = n then some e.1 else none)

/-! ## Graph builder (`KnowledgeGraphBuilder`) -/

/-- A chunk record `{id, text, metadata}` as consumed by `build_graph`. -/
structure ChunkRec where
  id : String
  text : String
  metadata : String
deriving DecidableEq

/-- An entity record `{id, text, type, chunk_id?, metadata?}`. -/
structure EntityRec where
  id : String
  text : String
  type : String
  chunk_id : Option String
  metadata : Option String
deriving DecidableEq

/-- A relationship record `{source, target, type, confidence?}`. -/
structure RelRec where
  source : String
  target : String
  type : String
  confidence : Option ℚ
deriving DecidableEq

def tyChunk : String := "chunk"
def tyEntity : String := "entity"
def tyText : String := "text"
def tyTable : String := "table"
def tyFigure : String := "figure"
def edgeContains : String := "contains"

/-- `_add_chunk_nodes`. -/
def addChunkNodes (g : Graph) (chunks : List ChunkRec) : Graph :=
  chunks.foldl (fun g c =>
    g.upsertNode ("chunk_" ++ c.id) (fun a =>
      {a with type := some tyChunk, content := some c.text,
              metadata := some c.metadata})) g

/-- The attribute merge `_add_entity_nodes` performs on one entity. -/
def entityAttrsUpdate (e : EntityRec) (a : NodeAttrs) : NodeAttrs :=
  {a with
    type := some tyEntity,
    content := some e.text,
    entity_type := some e.type,
    metadata := some (e.metadata.getD (""))}

/-- One iteration of `_add_entity_nodes`: the entity node plus, when the
entity carries a `chunk_id`, a `contains` edge from that chunk. -/
def addEntityNode (g : Graph) (e : EntityRec) : Graph :=
  let g1 := g.upsertNode ("entity_" ++ e.id) (entityAttrsUpdate e)
  match e.chunk_id with
  | some cid => g1.addEdge ("chunk_" ++ cid) ("entity_" ++ e.id)
      (fun a => {a with etype := some edgeContains})
  | none => g1

/-- `_add_entity_nodes`. -/
def addEntityNodes (g : Graph) (entities : List EntityRec) : Graph :=
  entities.foldl addEntityNode g

def charListStarts : List Char → List Char → Bool
  | [], _ => true
  | _ :: _, [] => false
  | a :: as, b :: bs => a == b && charListStarts as bs

/-- Whether the first character list occurs contiguously in the second. -/
def charListInfix (pat : List Char) : List Char → Bool
  | [] => pat.isEmpty
  | c :: rest => charListStarts pat (c :: rest) || charListInfix pat rest

/-- `"entity" in rel["source"]`: a substring test deciding the prefix. -/
def relEndpoint (raw : String) : NodeId :=
  if charListInfix ("entity").toList raw.toList then "entity_" ++ raw
  else "chunk_" ++ raw

/-- `_add_relationships`: one `add_edge` per record, with no check that
the endpoints already exist as nodes. -/
def addRelationships (g : Graph) (rels : List RelRec) : Graph :=
  rels.foldl (fun g r =>
    g.addEdge (relEndpoint r.source) (relEndpoint r.target) (fun a =>
      {a with etype := some r.type, confidence := some (r.confidence.getD 1)})) g

/-- One node's pass of `_generate_embeddings`: empty or missing content
is skipped; a missing `type` key raises a caught `KeyError` (skip); an
encoder failure or a dimension mismatch is skipped.  In graphs produced
by this builder every typed node is a chunk or an entity, so every
reachable branch encodes the node's string content with the text
encoder. -/
def embedStep (encode : String → Option (List ℚ)) (dim : ℕ)
    (a : NodeAttrs) : NodeAttrs :=
  let c := a.content.getD ("")
  if c = "" then a
  else match a.type with
    | none => a
    | some _ =>
      match encode c with
      | none => a
      | some e => if e.length = dim then {a with embedding := some e} else a

def generateEmbeddings (g : Graph) (encode : String → Option (List ℚ))
    (dim : ℕ) : Graph :=
  ⟨g.nodes.map (fun p => (p.1, embedStep encode dim p.2)), g.edges⟩

/-- `KnowledgeGraphBuilder.build_graph`. -/
def buildGraph (chunks : List ChunkRec) (entities : List EntityRec)
    (rels : List RelRec) (encode : String → Option (List ℚ)) (dim : ℕ) :
    Graph :=
  generateEmbeddings
    (addRelationships (addEntityNodes (addChunkNodes ⟨[], []⟩ chunks) entities)
      rels) encode dim

/-! ## Hybrid retriever (`ContextAwareRetriever`) -/

/-- Python slicing `l[:k]` including its negative-index semantics:
a negative `k` keeps all but the last `|k|` elements. -/
def pySlice {α : Type} (l : List α) (k : ℤ) : List α :=
  if 0 ≤ k then l.take k.toNat else l.take (l.length - (-k).toNat)

/-- Stable descending insertion by score, the behaviour of Python's
`sorted(xs, key=lambda x: x[1], reverse=True)`: an element is placed
before the first element of strictly smaller or equal score coming
later in the original order, and equal scores keep their original
relative order. -/
def insertDesc (x : NodeId × ℚ) : List (NodeId × ℚ) → List (NodeId × ℚ)
  | [] => [x]
  | y :: ys => if y.2 ≤ x.2 then x :: y :: ys else y :: insertDesc x ys

def sortDescBy : List (NodeId × ℚ) → List (NodeId × ℚ)
  | [] => []
  | x :: xs => insertDesc x (sortDescBy xs)

/-- The similarity list built by `_vector_search`: nodes without an
embedding, or whose embedding length differs from the query's, are
skipped; the rest are paired with the oracle similarity value. -/
def simList (nodes : List (NodeId × NodeAttrs))
    (sim : List ℚ → List ℚ → ℚ) (q : List ℚ) : List (NodeId × ℚ) :=
  nodes.foldr (fun p acc =>
    match p.2.embedding with
    | none => acc
    | some e => if q.length = e.length then (p.1, sim q e) :: acc else acc) []

/-- `_vector_search(query_embedding, k)`. -/
def vectorSearch (g : Graph) (sim : List ℚ → List ℚ → ℚ) (q : List ℚ)
    (k : ℤ) : List (NodeId × ℚ) :=
  pySlice (sortDescBy (simList g.nodes sim q)) k

def insertNew (l : List NodeId) (x : NodeId) : List NodeId :=
  if x ∈ l then l else l ++ [x]

/-- `_graph_expansion`: the set of seed nodes united with the
`neighbors` (successors) of every seed.  Python's `set` has no
specified iteration order; the model fixes first-insertion order, one
of the realizable orders. -/
def graphExpansion (g : Graph) (seeds : List (NodeId × ℚ)) : List NodeId :=
  let base := seeds.foldl (fun acc p => insertNew acc p.1) []
  seeds.foldl (fun acc p => (successors g p.1).foldl insertNew acc) base

def nodeEmb (g : Graph) (n : NodeId) : Option (List ℚ) :=
  ((g.attr? n).getD NodeAttrs.empty).embedding

/-- `len(list(neighbors(node))) / len(graph)`: the out-degree normalized
by the node count. -/
def importance (g : Graph) (n : NodeId) : ℚ :=
  ((successors g n).length : ℚ) / ((g.nodes.length : ℚ))

/-- In-degree plus out-degree: the count of incident edges in both
directions, the quantity the spec calls the candidate's degree. -/
def bothDegree (g : Graph) (n : NodeId) : ℕ :=
  (successors g n).length + (predecessors g n).length

/-- `_hybrid_scoring`: candidates without an embedding are dropped, the
rest get `0.7 * similarity + 0.3 * importance`. -/
def hybridScoring (g : Graph) (sim : List ℚ → List ℚ → ℚ) (q : List ℚ) :
    List NodeId → List (NodeId × ℚ)
  | [] => []
  | n :: ns =>
    match nodeEmb g n with
    | none => hybridScoring g sim q ns
    | some e =>
      (n, (7 : ℚ)/10 * sim q e + (3 : ℚ)/10 * importance g n) ::
        hybridScoring g sim q ns

/-- `_select_top_results`. -/
def selectTopResults (scored : List (NodeId × ℚ)) (k : ℤ) :
    List (NodeId × ℚ) :=
  pySlice (sortDescBy scored) k

/-- `retrieve`, taking the already-encoded query embedding (the encoder
is an external collaborator). -/
def retrieve (g : Graph) (sim : List ℚ → List ℚ → ℚ) (q : List ℚ)
    (k : ℤ) : List (NodeId × ℚ) :=
  selectTopResults
    (hybridScoring g sim q (graphExpansion g (vectorSearch g sim q (k * 2)))) k

/-- Adjacent scores are non-increasing. -/
def scoresNonIncr : List (NodeId × ℚ) → Bool
  | [] => true
  | [_] => true
  | a :: b :: t => decide (b.2 ≤ a.2) && scoresNonIncr (b :: t)

/-! ## Context assembler (`ContextAssembler`)

`assemble_context` is modelled as a fallible function: a `KeyError`
raised by `graph.nodes[node]` or by a missing required attribute key
makes the whole call fail (`none`).  Because `graph.nodes[n]` hands out
the live attribute dict, the statements `data["id"] = node` and
`node["relevance_score"] = ...` mutate the graph; the model threads the
updated graph through and returns it alongside the context. -/

/-- `_get_nodes_data`: resolve every candidate id (raising on a missing
one) while writing the `id` key into each resolved node's attribute
dict.  The returned list holds the ids of the live records. -/
def getNodesData : List NodeId → Graph → Option (List NodeId × Graph)
  | [], g => some ([], g)
  | n :: ns, g =>
    match g.attr? n with
    | none => none
    | some _ =>
      match getNodesData ns (g.modifyNode n (fun a => {a with id := some n})) with
      | none => none
      | some (l, g') => some (n :: l, g')

/-- The relevance score `_sort_nodes` computes for one record:
`cosine_similarity(node["embedding"], query_embedding)` through the
similarity oracle, `0.0` without an embedding. -/
def relevanceOf (asim : List ℚ → List ℚ → ℚ) (q : List ℚ)
    (a : NodeAttrs) : ℚ :=
  match a.embedding with
  | some e => asim e q
  | none => 0

/-- The mutating first half of `_sort_nodes`: write `relevance_score`
into every resolved record. -/
def setRelevance (g : Graph) (asim : List ℚ → List ℚ → ℚ) (q : List ℚ)
    (nd : List NodeId) : Graph :=
  nd.foldl (fun g n =>
    g.modifyNode n (fun a =>
      {a with relevance_score := some (relevanceOf asim q a)})) g

/-- `type_priority.get(x.get("type", ""), 999)`. -/
def typePriority : Option String → ℕ
  | none => 999
  | some t =>
    if t = "text" then 1
    else if t = "table" then 2
    else if t = "figure" then 2
    else if t = "entity" then 3
    else 999

def sortKey (g : Graph) (n : NodeId) : ℕ × ℚ :=
  let a := (g.attr? n).getD NodeAttrs.empty
  (typePriority a.type, -(a.relevance_score.getD 0))

/-- Lexicographic order on the sort key `(priority, -relevance)`. -/
def keyLt (k1 k2 : ℕ × ℚ) : Prop :=
  k1.1 < k2.1 ∨ (k1.1 = k2.1 ∧ k1.2 < k2.2)

instance (k1 k2 : ℕ × ℚ) : Decidable (keyLt k1 k2) := by
  unfold keyLt; infer_instance

/-- Stable ascending insertion by `sortKey`, the behaviour of Python's
`sorted` with that key. -/
def insertAsc (g : Graph) (x : NodeId) : List NodeId → List NodeId
  | [] => [x]
  | y :: ys =>
    if keyLt (sortKey g y) (sortKey g x) then y :: insertAsc g x ys
    else x :: y :: ys

/-- The sorting second half of `_sort_nodes`. -/
def sortNodesList (g : Graph) : List NodeId → List NodeId
  | [] => []
  | x :: xs => insertAsc g x (sortNodesList g xs)

structure Groups where
  text : List NodeId
  table : List NodeId
  figure : List NodeId
  entity : List NodeId
deriving DecidableEq

/-- `_group_nodes`: bucket by `node.get("type", "text")`, silently
dropping any node whose type names none of the four buckets. -/
def groupNodes (g : Graph) (l : List NodeId) : Groups :=
  l.foldl (fun gr n =>
    let t := ((g.attr? n).getD NodeAttrs.empty).type.getD ("text")
    if t = "text" then {gr with text := gr.text ++ [n]}
    else if t = "table" then {gr with table := gr.table ++ [n]}
    else if t = "figure" then {gr with figure := gr.figure ++ [n]}
    else if t = "entity" then {gr with entity := gr.entity ++ [n]}
    else gr) ⟨[], [], [], []⟩

/-- The greedy text loop of `_assemble_with_token_limit`: pack
`node["content"]` while the remaining budget covers its token count,
stop at the first item that does not fit; a missing `content` key is a
`KeyError`. -/
def packText (g : Graph) (ct : String → ℕ) :
    List NodeId → ℤ → Option (List String × ℤ)
  | [], rem => some ([], rem)
  | n :: ns, rem =>
    match ((g.attr? n).getD NodeAttrs.empty).content with
    | none => none
    | some s =>
      if (ct s : ℤ) ≤ rem then
        match packText g ct ns (rem - (ct s : ℤ)) with
        | none => none
        | some (l, r) => some (s :: l, r)
      else some ([], rem)

/-- Tables section: `{"content": t["content"], "caption": t.get("caption", "")}`. -/
def tablesOf (g : Graph) : List NodeId → Option (List (String × String))
  | [] => some []
  | n :: ns =>
    let a := (g.attr? n).getD NodeAttrs.empty
    match a.content with
    | none => none
    | some c =>
      match tablesOf g ns with
      | none => none
      | some l => some ((c, a.caption.getD ("")) :: l)

/-- Figures section: `{"image": f["image"], "caption": f.get("caption", "")}`. -/
def figuresOf (g : Graph) : List NodeId → Option (List (String × String))
  | [] => some []
  | n :: ns =>
    let a := (g.attr? n).getD NodeAttrs.empty
    match a.image with
    | none => none
    | some img =>
      match figuresOf g ns with
      | none => none
      | some l => some ((img, a.caption.getD ("")) :: l)

/-- Entities section: `{"text": node["text"], "type": node["type"]}`. -/
def entitiesOf (g : Graph) : List NodeId → Option (List (String × String))
  | [] => some []
  | n :: ns =>
    let a := (g.attr? n).getD NodeAttrs.empty
    match a.text with
    | none => none
    | some t =>
      match a.type with
      | none => none
      | some ty =>
        match entitiesOf g ns with
        | none => none
        | some l => some ((t, ty) :: l)

/-- The context record returned by `assemble_context`. -/
structure Context where
  text : List String
  tables : List (String × String)
  figures : List (String × String)
  entities : List (String × String)
  total_tokens : ℤ
deriving DecidableEq

/-- `_assemble_with_token_limit`: greedy text packing, then at most 2
tables, 2 figures and 5 entities (count caps, no token accounting), and
`total_tokens = max_tokens - remaining_tokens`. -/
def assembleTokens (g : Graph) (ct : String → ℕ) (gr : Groups)
    (maxTokens : ℤ) : Option Context :=
  match packText g ct gr.text maxTokens with
  | none => none
  | some (texts, rem) =>
    match tablesOf g (gr.table.take 2) with
    | none => none
    | some tabs =>
      match figuresOf g (gr.figure.take 2) with
      | none => none
      | some figs =>
        match entitiesOf g (gr.entity.take 5) with
        | none => none
        | some ents => some ⟨texts, tabs, figs, ents, maxTokens - rem⟩

/-- `assemble_context(retrieved_nodes, knowledge_graph, query_embedding,
max_tokens)`, returning the context together with the mutated graph. -/
def assembleContext (g : Graph) (asim : List ℚ → List ℚ → ℚ)
    (ct : String → ℕ) (cands : List NodeId) (q : List ℚ)
    (maxTokens : ℤ) : Option (Context × Graph) :=
  match getNodesData cands g with
  | none => none
  | some (nd, g1) =>
    let g2 := setRelevance g1 asim q nd
    let sorted := sortNodesList g2 nd
    let gr := groupNodes g2 sorted
    match assembleTokens g2 ct gr maxTokens with
    | none => none
    | some c => some (c, g2)

/-- Token total of a list of packed text items. -/
def tokensSum (ct : String → ℕ) : List String → ℤ
  | [] => 0
  | s :: t => (ct s : ℤ) + tokensSum ct t

/-! ## Concrete instances used by counterexamples and witnesses.
Every oracle below is realizable by the real collaborators: `simOne`
is the cosine similarity when every stored embedding equals the query
embedding `[1, 0]` (cosine of a unit vector with itself is `1`), and
`ctLen` counts one token per character. -/

def simOne : List ℚ → List ℚ → ℚ := fun _ _ => 1

def ctLen : String → ℕ := String.length

def encNone : String → Option (List ℚ) := fun _ => none

def qEx : List ℚ := [1, 0]

/-- A chunk node as `build_graph` produces it, embedded at `[1, 0]`. -/
def chunkA : NodeAttrs :=
  {NodeAttrs.empty with
    type := some tyChunk,
    content := some ("alpha"),
    embedding := some [1, 0]}

/-- Two embedded chunk nodes joined by one directed edge `a → b`. -/
def gC1 : Graph :=
  ⟨[("chunk_a", chunkA), ("chunk_b", chunkA)],
   [("chunk_a", "chunk_b", ⟨some ("related"), some 1⟩)]⟩

/-- Two embedded chunk nodes, inserted with `chunk_b` first, no edges:
every similarity and every hybrid score ties. -/
def gTie : Graph := ⟨[("chunk_b", chunkA), ("chunk_a", chunkA)], []⟩

/-- Four embedded chunk nodes, no edges. -/
def g8 : Graph :=
  ⟨[("chunk_a", chunkA), ("chunk_b", chunkA), ("chunk_c", chunkA),
    ("chunk_d", chunkA)], []⟩

/-- `chunk_a` embedded, `chunk_b` embedding-less, one edge
`chunk_b → chunk_a`: `chunk_b` is a predecessor of the only seed. -/
def gC4 : Graph :=
  ⟨[("chunk_a", chunkA),
    ("chunk_b", {NodeAttrs.empty with
      type := some tyChunk,
      content := some ("beta")})],
   [("chunk_b", "chunk_a", ⟨some ("related"), some 1⟩)]⟩

/-- A single built chunk node with content and an embedding. -/
def g5 : Graph :=
  ⟨[("chunk_1", {NodeAttrs.empty with
      type := some tyChunk,
      content := some ("hello world"),
      embedding := some [1, 0]})], []⟩

/-- `g5` after one `assemble_context` call: the live attribute dict has
gained the `id` and `relevance_score` keys. -/
def g5post : Graph :=
  ⟨[("chunk_1", {NodeAttrs.empty with
      type := some tyChunk,
      content := some ("hello world"),
      embedding := some [1, 0],
      id := some ("chunk_1"),
      relevance_score := some 1})], []⟩

/-- A context with every section empty. -/
def emptyCtx : Context := ⟨[], [], [], [], 0⟩

/-- A single `text`-typed node, the one type label the assembler packs. -/
def g6 : Graph :=
  ⟨[("t1", {NodeAttrs.empty with
      type := some tyText,
      content := some ("hello"),
      embedding := some [1, 0]})], []⟩

def g6post : Graph :=
  ⟨[("t1", {NodeAttrs.empty with
      type := some tyText,
      content := some ("hello"),
      embedding := some [1, 0],
      id := some ("t1"),
      relevance_score := some 1})], []⟩

def c6ctx : Context := ⟨["hello"], [], [], [], 5⟩

/-- A relationship whose endpoints name no existing node. -/
def relC3 : RelRec := ⟨"s1", "t1", "related", none⟩

/-- A chunk record with empty text. -/
def c10chunk : ChunkRec := ⟨"1", "", ""⟩

/-- The node `build_graph [c10chunk] [] []` produces. -/
def a10 : NodeAttrs :=
  {NodeAttrs.empty with
    type := some tyChunk,
    content := some (""),
    metadata := some ("")}

/-- The structural part of the graph the assembler provably leaves
alone: the edge list and the node ids in their insertion order. -/
def preservesScaffold (g g' : Graph) : Prop :=
  g'.edges = g.edges ∧ g'.nodes.map Prod.fst = g.nodes.map Prod.fst

/-- Equality of two attribute records on every field except the two
bookkeeping keys (`id`, `relevance_score`) the assembler writes. -/
def contentEq (a a' : NodeAttrs) : Prop :=
  a'.type = a.type ∧ a'.content = a.content ∧ a'.entity_type = a.entity_type ∧
  a'.metadata = a.metadata ∧ a'.text = a.text ∧ a'.caption = a.caption ∧
  a'.image = a.image ∧ a'.embedding = a.embedding

/-- What one `assemble_context` call may do to the graph, relative to a
candidate list `cs`: edges and node ids untouched, records of nodes
outside `cs` untouched, and every surviving record equal to its old
value on all fields other than `id` and `relevance_score`. -/
def assembleFrame (cs : List NodeId) (g g' : Graph) : Prop :=
  preservesScaffold g g' ∧
  (∀ n, n ∉ cs → g'.attr? n = g.attr? n) ∧
  (∀ n a a', g.attr? n = some a → g'.attr? n = some a' → contentEq a a')

/-! ## Helper lemmas: stable sorting, Python slicing, scoring -/

theorem mem_insertDesc (z x : NodeId × ℚ) : ∀ (l : List (NodeId × ℚ)),
    (z ∈ insertDesc x l ↔ z = x ∨ z ∈ l)
  | [] => by simp [insertDesc]
  | y :: ys => by
    simp only [insertDesc]
    split
    · simp
    · rw [List.mem_cons, mem_insertDesc z x ys]
      simp only [List.mem_cons]
      tauto

theorem pairwise_insertDesc (x : NodeId × ℚ) : ∀ (l : List (NodeId × ℚ)),
    l.Pairwise (fun a b => b.2 ≤ a.2) →
    (insertDesc x l).Pairwise (fun a b => b.2 ≤ a.2)
  | [], _ => by simp [insertDesc]
  | y :: ys, h => by
    rcases List.pairwise_cons.mp h with ⟨hy, hys⟩
    simp only [insertDesc]
    split
    · rename_i hle
      refine List.pairwise_cons.mpr ⟨?_, h⟩
      intro z hz
      rcases List.mem_cons.mp hz with rfl | hz'
      · exact hle
      · exact le_trans (hy z hz') hle
    · rename_i hlt
      refine List.pairwise_cons.mpr ⟨?_, pairwise_insertDesc x ys hys⟩
      intro z hz
      rcases (mem_insertDesc z x ys).mp hz with rfl | hz'
      · exact le_of_lt (lt_of_not_le hlt)
      · exact hy z hz'

theorem pairwise_sortDescBy : ∀ (l : List (NodeId × ℚ)),
    (sortDescBy l).Pairwise (fun a b => b.2 ≤ a.2)
  | [] => by simp [sortDescBy]
  | x :: xs => by
    simp only [sortDescBy]
    exact pairwise_insertDesc x _ (pairwise_sortDescBy xs)

theorem mem_sortDescBy (z : NodeId × ℚ) : ∀ (l : List (NodeId × ℚ)),
    (z ∈ sortDescBy l ↔ z ∈ l)
  | [] => by simp [sortDescBy]
  | x :: xs => by
    simp only [sortDescBy]
    rw [mem_insertDesc, mem_sortDescBy z xs, List.mem_cons]

theorem pySlice_sublist {α : Type} (l : List α) (k : ℤ) :
    List.Sublist (pySlice l k) l := by
  unfold pySlice
  split <;> exact List.take_sublist _ _

theorem length_pySlice_le {α : Type} (l : List α) (k : ℤ) (hk : 0 ≤ k) :
    (pySlice l k).length ≤ k.toNat := by
  unfold pySlice
  rw [if_pos hk]
  simp [List.length_take]

theorem scoresNonIncr_of_pairwise : ∀ (l : List (NodeId × ℚ)),
    l.Pairwise (fun a b => b.2 ≤ a.2) → scoresNonIncr l = true
  | [], _ => rfl
  | [_], _ => rfl
  | a :: b :: t, h => by
    have h1 := List.pairwise_cons.mp h
    have hba : b.2 ≤ a.2 := h1.1 b (List.mem_cons_self b t)
    have ht := scoresNonIncr_of_pairwise (b :: t) h1.2
    simp [scoresNonIncr, hba, ht]

theorem hybridScoring_mem_emb (g : Graph) (sim : List ℚ → List ℚ → ℚ)
    (q : List ℚ) : ∀ (cs : List NodeId) (p : NodeId × ℚ),
    p ∈ hybridScoring g sim q cs →
    ∃ e, nodeEmb g p.1 = some e ∧
      p.2 = (7 : ℚ)/10 * sim q e + (3 : ℚ)/10 * importance g p.1 ∧ p.1 ∈ cs
  | [], p, h => by simp [hybridScoring] at h
  | n :: ns, p, h => by
    simp only [hybridScoring] at h
    split at h
    · rcases hybridScoring_mem_emb g sim q ns p h with ⟨e, h1, h2, h3⟩
      exact ⟨e, h1, h2, List.mem_cons_of_mem _ h3⟩
    · rename_i e0 hemb
      rcases List.mem_cons.mp h with rfl | h'
      · exact ⟨e0, hemb, rfl, List.mem_cons_self _ _⟩
      · rcases hybridScoring_mem_emb g sim q ns p h' with ⟨e, h1, h2, h3⟩
        exact ⟨e, h1, h2, List.mem_cons_of_mem _ h3⟩

theorem hybridScoring_mem_of (g : Graph) (sim : List ℚ → List ℚ → ℚ)
    (q : List ℚ) (n : NodeId) (e : List ℚ) (hemb : nodeEmb g n = some e) :
    ∀ (cs : List NodeId), n ∈ cs →
    (n, (7 : ℚ)/10 * sim q e + (3 : ℚ)/10 * importance g n) ∈
      hybridScoring g sim q cs
  | [], h => by simp at h
  | m :: ms, h => by
    simp only [hybridScoring]
    rcases List.mem_cons.mp h with rfl | h'
    · rw [hemb]
      exact List.mem_cons_self _ _
    · split
      · exact hybridScoring_mem_of g sim q n e hemb ms h'
      · exact List.mem_cons_of_mem _ (hybridScoring_mem_of g sim q n e hemb ms h')

theorem hybridScoring_not_mem (g : Graph) (sim : List ℚ → List ℚ → ℚ)
    (q : List ℚ) (n : NodeId) (hn : nodeEmb g n = none) (s : ℚ)
    (cs : List NodeId) : (n, s) ∉ hybridScoring g sim q cs := by
  intro h
  rcases hybridScoring_mem_emb g sim q cs (n, s) h with ⟨e, he, _, _⟩
  rw [hn] at he
  exact Option.noConfusion he

/-! ## Helper lemmas: graph expansion membership -/

theorem mem_insertNew (l : List NodeId) (x z : NodeId) :
    z ∈ insertNew l x ↔ z ∈ l ∨ z = x := by
  unfold insertNew
  split
  · rename_i hx
    constructor
    · exact fun h => Or.inl h
    · rintro (h | rfl)
      · exact h
      · exact hx
  · simp [List.mem_append]

theorem mem_foldl_insertNew (z : NodeId) : ∀ (l acc : List NodeId),
    z ∈ l.foldl insertNew acc ↔ z ∈ acc ∨ z ∈ l
  | [], acc => by simp
  | x :: xs, acc => by
    simp only [List.foldl_cons]
    rw [mem_foldl_insertNew z xs (insertNew acc x), mem_insertNew,
      List.mem_cons]
    tauto

theorem mem_foldl_insertNew_fst (z : NodeId) :
    ∀ (seeds : List (NodeId × ℚ)) (acc : List NodeId),
    z ∈ seeds.foldl (fun acc p => insertNew acc p.1) acc ↔
      z ∈ acc ∨ ∃ p ∈ seeds, p.1 = z
  | [], acc => by simp
  | x :: xs, acc => by
    simp only [List.foldl_cons]
    rw [mem_foldl_insertNew_fst z xs (insertNew acc x.1), mem_insertNew]
    constructor
    · rintro ((h | rfl) | ⟨p, hp, rfl⟩)
      · exact Or.inl h
      · exact Or.inr ⟨x, List.mem_cons_self x xs, rfl⟩
      · exact Or.inr ⟨p, List.mem_cons_of_mem x hp, rfl⟩
    · rintro (h | ⟨p, hp, rfl⟩)
      · exact Or.inl (Or.inl h)
      · rcases List.mem_cons.mp hp with rfl | hp'
        · exact Or.inl (Or.inr rfl)
        · exact Or.inr ⟨p, hp', rfl⟩

theorem mem_foldl_succ (g : Graph) (z : NodeId) :
    ∀ (seeds : List (NodeId × ℚ)) (acc : List NodeId),
    z ∈ seeds.foldl (fun acc p => (successors g p.1).foldl insertNew acc) acc ↔
      z ∈ acc ∨ ∃ p ∈ seeds, z ∈ successors g p.1
  | [], acc => by simp
  | x :: xs, acc => by
    simp only [List.foldl_cons]
    rw [mem_foldl_succ g z xs _, mem_foldl_insertNew]
    constructor
    · rintro ((h | h) | ⟨p, hp, hz⟩)
      · exact Or.inl h
      · exact Or.inr ⟨x, List.mem_cons_self x xs, h⟩
      · exact Or.inr ⟨p, List.mem_cons_of_mem x hp, hz⟩
    · rintro (h | ⟨p, hp, hz⟩)
      · exact Or.inl (Or.inl h)
      · rcases List.mem_cons.mp hp with rfl | hp'
        · exact Or.inl (Or.inr hz)
        · exact Or.inr ⟨p, hp', hz⟩

/-! ## Helper lemmas: attribute lookup under in-place updates -/

theorem lookupAttrs_update_ne (m n : NodeId) (f : NodeAttrs → NodeAttrs)
    (hmn : m ≠ n) (l : List (NodeId × NodeAttrs)) :
    lookupAttrs (updateAttrs l m f) n = lookupAttrs l n := by
  induction l with
  | nil => rfl
  | cons p ps ih =>
    simp only [updateAttrs, List.map_cons]
    by_cases hpm : p.1 = m
    · rw [if_pos hpm]
      simp only [lookupAttrs]
      have hpn : ¬ p.1 = n := fun h => hmn (by rw [← hpm]; exact h)
      rw [if_neg hpn, if_neg hpn]
      exact ih
    · rw [if_neg hpm]
      simp only [lookupAttrs]
      by_cases hpn : p.1 = n
      · rw [if_pos hpn, if_pos hpn]
      · rw [if_neg hpn, if_neg hpn]
        exact ih

theorem lookupAttrs_update_self (m : NodeId) (f : NodeAttrs → NodeAttrs)
    (l : List (NodeId × NodeAttrs)) :
    lookupAttrs (updateAttrs l m f) m = (lookupAttrs l m).map f := by
  induction l with
  | nil => rfl
  | cons p ps ih =>
    simp only [updateAttrs, List.map_cons]
    by_cases hpm : p.1 = m
    · rw [if_pos hpm]
      simp only [lookupAttrs]
      rw [if_pos hpm, if_pos hpm]
      rfl
    · rw [if_neg hpm]
      simp only [lookupAttrs]
      rw [if_neg hpm, if_neg hpm]
      exact ih

theorem updateAttrs_keys (m : NodeId) (f : NodeAttrs → NodeAttrs)
    (l : List (NodeId × NodeAttrs)) :
    (updateAttrs l m f).map Prod.fst = l.map Prod.fst := by
  induction l with
  | nil => rfl
  | cons p ps ih =>
    simp only [updateAttrs, List.map_cons] at ih ⊢
    by_cases hpm : p.1 = m
    · rw [if_pos hpm]
      rw [ih]
    · rw [if_neg hpm]
      rw [ih]

theorem lookupAttrs_isSome_of_keys :
    ∀ (l l' : List (NodeId × NodeAttrs)),
    l.map Prod.fst = l'.map Prod.fst → ∀ (n : NodeId),
    (lookupAttrs l n).isSome = (lookupAttrs l' n).isSome
  | [], [], _, _ => rfl
  | [], _ :: _, h, _ => by
    simp only [List.map_nil, List.map_cons] at h
    exact List.noConfusion h
  | _ :: _, [], h, _ => by
    simp only [List.map_nil, List.map_cons] at h
    exact List.noConfusion h
  | p :: ps, p' :: ps', h, n => by
    simp only [List.map_cons, List.cons.injEq] at h
    simp only [lookupAttrs]
    by_cases hpn : p.1 = n
    · rw [if_pos hpn, if_pos (by rw [← h.1]; exact hpn)]
      rfl
    · rw [if_neg hpn, if_neg (fun hh => hpn (by rw [h.1]; exact hh))]
      exact lookupAttrs_isSome_of_keys ps ps' h.2 n

theorem lookupAttrs_mem : ∀ (l : List (NodeId × NodeAttrs)) (n : NodeId)
    (a : NodeAttrs), lookupAttrs l n = some a → (n, a) ∈ l
  | [], _, _, h => Option.noConfusion h
  | p :: ps, n, a, h => by
    simp only [lookupAttrs] at h
    split at h
    · rename_i hpn
      cases Option.some.inj h
      subst hpn
      simp
    · exact List.mem_cons_of_mem p (lookupAttrs_mem ps n a h)

theorem modifyNode_attr_ne (g : Graph) (m : NodeId)
    (f : NodeAttrs → NodeAttrs) (n : NodeId) (h : m ≠ n) :
    (g.modifyNode m f).attr? n = g.attr? n :=
  lookupAttrs_update_ne m n f h g.nodes

theorem modifyNode_attr_self (g : Graph) (m : NodeId)
    (f : NodeAttrs → NodeAttrs) :
    (g.modifyNode m f).attr? m = (g.attr? m).map f :=
  lookupAttrs_update_self m f g.nodes

theorem modifyNode_scaffold (g : Graph) (m : NodeId)
    (f : NodeAttrs → NodeAttrs) : preservesScaffold g (g.modifyNode m f) :=
  ⟨rfl, updateAttrs_keys m f g.nodes⟩

theorem scaffold_refl (g : Graph) : preservesScaffold g g := ⟨rfl, rfl⟩

theorem scaffold_trans {g g₁ g₂ : Graph} (h1 : preservesScaffold g g₁)
    (h2 : preservesScaffold g₁ g₂) : preservesScaffold g g₂ :=
  ⟨h2.1.trans h1.1, h2.2.trans h1.2⟩

theorem scaffold_attr_isSome {g g' : Graph} (h : preservesScaffold g g')
    (n : NodeId) : (g'.attr? n).isSome = (g.attr? n).isSome :=
  lookupAttrs_isSome_of_keys g'.nodes g.nodes h.2 n

theorem contentEq_refl (a : NodeAttrs) : contentEq a a :=
  ⟨rfl, rfl, rfl, rfl, rfl, rfl, rfl, rfl⟩

theorem contentEq_trans {a b c : NodeAttrs} (h1 : contentEq a b)
    (h2 : contentEq b c) : contentEq a c :=
  ⟨h2.1.trans h1.1, h2.2.1.trans h1.2.1, h2.2.2.1.trans h1.2.2.1,
   h2.2.2.2.1.trans h1.2.2.2.1, h2.2.2.2.2.1.trans h1.2.2.2.2.1,
   h2.2.2.2.2.2.1.trans h1.2.2.2.2.2.1,
   h2.2.2.2.2.2.2.1.trans h1.2.2.2.2.2.2.1,
   h2.2.2.2.2.2.2.2.trans h1.2.2.2.2.2.2.2⟩

theorem frame_refl (cs : List NodeId) (g : Graph) : assembleFrame cs g g := by
  refine ⟨scaffold_refl g, fun _ _ => rfl, ?_⟩
  intro n a a' h1 h2
  rw [h1] at h2
  cases Option.some.inj h2
  exact contentEq_refl a

theorem frame_trans {cs : List NodeId} {g g₁ g₂ : Graph}
    (h1 : assembleFrame cs g g₁) (h2 : assembleFrame cs g₁ g₂) :
    assembleFrame cs g g₂ := by
  obtain ⟨hs1, ho1, hc1⟩ := h1
  obtain ⟨hs2, ho2, hc2⟩ := h2
  refine ⟨scaffold_trans hs1 hs2, fun n hn => (ho2 n hn).trans (ho1 n hn), ?_⟩
  intro n a a' ha ha'
  have hsome : (g₁.attr? n).isSome = true := by
    rw [scaffold_attr_isSome hs1 n, ha]
    rfl
  obtain ⟨b, hb⟩ := Option.isSome_iff_exists.mp hsome
  exact contentEq_trans (hc1 n a b ha hb) (hc2 n b a' hb ha')

theorem frame_weaken {cs cs' : List NodeId} {g g' : Graph}
    (hsub : ∀ x, x ∈ cs → x ∈ cs') (h : assembleFrame cs g g') :
    assembleFrame cs' g g' := by
  obtain ⟨hs, ho, hc⟩ := h
  exact ⟨hs, fun n hn => ho n (fun hx => hn (hsub n hx)), hc⟩

theorem frame_modify (cs : List NodeId) (g : Graph) (m : NodeId)
    (f : NodeAttrs → NodeAttrs) (hm : m ∈ cs)
    (hf : ∀ a, contentEq a (f a)) : assembleFrame cs g (g.modifyNode m f) := by
  refine ⟨modifyNode_scaffold g m f, ?_, ?_⟩
  · intro n hn
    exact modifyNode_attr_ne g m f n (fun hmn => hn (hmn ▸ hm))
  · intro n a a' h1 h2
    by_cases hmn : m = n
    · subst hmn
      rw [modifyNode_attr_self, h1] at h2
      cases Option.some.inj h2
      exact hf a
    · rw [modifyNode_attr_ne g m f n hmn, h1] at h2
      cases Option.some.inj h2
      exact contentEq_refl a

/-! ## Helper lemmas: assembler passes -/

theorem getNodesData_frame : ∀ (cs : List NodeId) (g : Graph)
    (nd : List NodeId) (g' : Graph),
    getNodesData cs g = some (nd, g') → nd = cs ∧ assembleFrame cs g g'
  | [], g, nd, g', h => by
    simp only [getNodesData, Option.some.injEq, Prod.mk.injEq] at h
    obtain ⟨h1, h2⟩ := h
    subst h1
    subst h2
    exact ⟨rfl, frame_refl [] g⟩
  | n :: ns, g, nd, g', h => by
    simp only [getNodesData] at h
    split at h
    · exact Option.noConfusion h
    · split at h
      · exact Option.noConfusion h
      · rename_i l g1 hrec
        rw [Option.some.injEq, Prod.mk.injEq] at h
        obtain ⟨h1, h2⟩ := h
        subst h1
        subst h2
        have IH := getNodesData_frame ns _ l g1 hrec
        refine ⟨by rw [IH.1], ?_⟩
        have f1 : assembleFrame (n :: ns) g
            (g.modifyNode n (fun a => {a with id := some n})) :=
          frame_modify (n :: ns) g n _ (List.mem_cons_self n ns)
            (fun a => ⟨rfl, rfl, rfl, rfl, rfl, rfl, rfl, rfl⟩)
        have f2 := frame_weaken
          (fun x hx => List.mem_cons_of_mem n hx) IH.2
        exact frame_trans f1 f2

theorem setRelevance_frame (asim : List ℚ → List ℚ → ℚ) (q : List ℚ) :
    ∀ (nd : List NodeId) (g : Graph),
    assembleFrame nd g (setRelevance g asim q nd)
  | [], g => frame_refl [] g
  | n :: ns, g => by
    have f1 : assembleFrame (n :: ns) g
        (g.modifyNode n (fun a =>
          {a with relevance_score := some (relevanceOf asim q a)})) :=
      frame_modify (n :: ns) g n _ (List.mem_cons_self n ns)
        (fun a => ⟨rfl, rfl, rfl, rfl, rfl, rfl, rfl, rfl⟩)
    have f2 := frame_weaken (fun x hx => List.mem_cons_of_mem n hx)
      (setRelevance_frame asim q ns (g.modifyNode n (fun a =>
        {a with relevance_score := some (relevanceOf asim q a)})))
    exact frame_trans f1 f2

theorem getNodesData_missing : ∀ (cs : List NodeId) (g : Graph)
    (c : NodeId), c ∈ cs → g.attr? c = none → getNodesData cs g = none
  | [], _, c, h, _ => absurd h (List.not_mem_nil c)
  | n :: ns, g, c, h, hnone => by
    simp only [getNodesData]
    split
    · rfl
    · rename_i a ha
      have hcn : c ≠ n := by
        intro hh
        rw [hh, ha] at hnone
        exact Option.noConfusion hnone
      have hmem : c ∈ ns := by
        rcases List.mem_cons.mp h with rfl | hm
        · exact absurd rfl hcn
        · exact hm
      have hc' : (g.modifyNode n
          (fun a => {a with id := some n})).attr? c = none := by
        rw [modifyNode_attr_ne g n _ c (fun hnn => hcn hnn.symm)]
        exact hnone
      rw [getNodesData_missing ns _ c hmem hc']

theorem packText_spec (g : Graph) (ct : String → ℕ) :
    ∀ (l : List NodeId) (rem : ℤ), 0 ≤ rem →
    ∀ (texts : List String) (rem' : ℤ),
    packText g ct l rem = some (texts, rem') →
    0 ≤ rem' ∧ rem - rem' = tokensSum ct texts
  | [], rem, h0, texts, rem', h => by
    simp only [packText, Option.some.injEq, Prod.mk.injEq] at h
    obtain ⟨h1, h2⟩ := h
    subst h1
    subst h2
    simp only [tokensSum]
    exact ⟨h0, by omega⟩
  | n :: ns, rem, h0, texts, rem', h => by
    simp only [packText] at h
    split at h
    · exact Option.noConfusion h
    · rename_i s hs
      split at h
      · rename_i hfit
        split at h
        · exact Option.noConfusion h
        · rename_i l r hrec
          rw [Option.some.injEq, Prod.mk.injEq] at h
          obtain ⟨h1, h2⟩ := h
          subst h1
          subst h2
          have IH := packText_spec g ct ns (rem - (ct s : ℤ)) (by omega)
            l r hrec
          refine ⟨IH.1, ?_⟩
          simp only [tokensSum]
          have := IH.2
          omega
      · rw [Option.some.injEq, Prod.mk.injEq] at h
        obtain ⟨h1, h2⟩ := h
        subst h1
        subst h2
        simp only [tokensSum]
        exact ⟨h0, by omega⟩

/-! ## Helper lemmas: builder phases never attach an embedding -/

theorem emb_none_upsert (g : Graph) (n : NodeId) (f : NodeAttrs → NodeAttrs)
    (hf : ∀ a, (f a).embedding = a.embedding)
    (hg : ∀ p ∈ g.nodes, p.2.embedding = none) :
    ∀ p ∈ (g.upsertNode n f).nodes, p.2.embedding = none := by
  intro p hp
  simp only [Graph.upsertNode] at hp
  split at hp
  · simp only [updateAttrs, List.mem_map] at hp
    obtain ⟨p0, hp0, rfl⟩ := hp
    by_cases h0 : p0.1 = n
    · rw [if_pos h0]
      rw [hf p0.2]
      exact hg p0 hp0
    · rw [if_neg h0]
      exact hg p0 hp0
  · rcases List.mem_append.mp hp with hp' | hp'
    · exact hg p hp'
    · rw [List.mem_singleton.mp hp']
      exact hf NodeAttrs.empty

theorem emb_none_ensure (g : Graph) (n : NodeId)
    (hg : ∀ p ∈ g.nodes, p.2.embedding = none) :
    ∀ p ∈ (g.ensureNode n).nodes, p.2.embedding = none := by
  intro p hp
  simp only [Graph.ensureNode] at hp
  split at hp
  · exact hg p hp
  · rcases List.mem_append.mp hp with hp' | hp'
    · exact hg p hp'
    · rw [List.mem_singleton.mp hp']
      rfl

theorem emb_none_addEdge (g : Graph) (u v : NodeId)
    (f : EdgeAttrs → EdgeAttrs)
    (hg : ∀ p ∈ g.nodes, p.2.embedding = none) :
    ∀ p ∈ (g.addEdge u v f).nodes, p.2.embedding = none := by
  intro p hp
  simp only [Graph.addEdge] at hp
  split at hp
  · exact emb_none_ensure _ v (emb_none_ensure g u hg) p hp
  · exact emb_none_ensure _ v (emb_none_ensure g u hg) p hp

theorem emb_none_addChunkNodes : ∀ (chunks : List ChunkRec) (g : Graph),
    (∀ p ∈ g.nodes, p.2.embedding = none) →
    ∀ p ∈ (addChunkNodes g chunks).nodes, p.2.embedding = none
  | [], _, hg => hg
  | c :: cs, g, hg => by
    show ∀ p ∈ (addChunkNodes (g.upsertNode _ _) cs).nodes, _
    exact emb_none_addChunkNodes cs _ (emb_none_upsert g _ _ (fun a => rfl) hg)

theorem emb_none_addEntityNode (g : Graph) (e : EntityRec)
    (hg : ∀ p ∈ g.nodes, p.2.embedding = none) :
    ∀ p ∈ (addEntityNode g e).nodes, p.2.embedding = none := by
  intro p hp
  have hup : ∀ p ∈ (g.upsertNode ("entity_" ++ e.id)
      (entityAttrsUpdate e)).nodes, p.2.embedding = none :=
    emb_none_upsert g ("entity_" ++ e.id) (entityAttrsUpdate e)
      (fun a => rfl) hg
  simp only [addEntityNode] at hp
  split at hp
  · rename_i cid hch
    exact emb_none_addEdge (g.upsertNode ("entity_" ++ e.id)
      (entityAttrsUpdate e)) ("chunk_" ++ cid) ("entity_" ++ e.id)
      (fun a => {a with etype := some edgeContains}) hup p hp
  · exact hup p hp

theorem emb_none_addEntityNodes : ∀ (entities : List EntityRec) (g : Graph),
    (∀ p ∈ g.nodes, p.2.embedding = none) →
    ∀ p ∈ (addEntityNodes g entities).nodes, p.2.embedding = none
  | [], _, hg => hg
  | e :: es, g, hg =>
    emb_none_addEntityNodes es _ (emb_none_addEntityNode g e hg)

theorem emb_none_addRelationships : ∀ (rels : List RelRec) (g : Graph),
    (∀ p ∈ g.nodes, p.2.embedding = none) →
    ∀ p ∈ (addRelationships g rels).nodes, p.2.embedding = none
  | [], _, hg => hg
  | r :: rs, g, hg => by
    show ∀ p ∈ (addRelationships (g.addEdge _ _ _) rs).nodes, _
    exact emb_none_addRelationships rs _ (emb_none_addEdge g _ _ _ hg)

/-! ## Helper lemmas: the embedding pass -/

theorem lookupAttrs_map_embedStep (encode : String → Option (List ℚ))
    (dim : ℕ) (n : NodeId) : ∀ (l : List (NodeId × NodeAttrs)),
    lookupAttrs (l.map (fun p => (p.1, embedStep encode dim p.2))) n =
      (lookupAttrs l n).map (embedStep encode dim)
  | [] => rfl
  | p :: ps => by
    simp only [List.map_cons, lookupAttrs]
    by_cases hpn : p.1 = n
    · rw [if_pos hpn, if_pos hpn]
      rfl
    · rw [if_neg hpn, if_neg hpn]
      exact lookupAttrs_map_embedStep encode dim n ps

theorem attr?_generateEmbeddings (g : Graph)
    (encode : String → Option (List ℚ)) (dim : ℕ) (n : NodeId) :
    (generateEmbeddings g encode dim).attr? n =
      (g.attr? n).map (embedStep encode dim) :=
  lookupAttrs_map_embedStep encode dim n g.nodes

theorem embedStep_empty_content (encode : String → Option (List ℚ))
    (dim : ℕ) (a : NodeAttrs) (h : a.content.getD ("") = "") :
    embedStep encode dim a = a := by
  simp [embedStep, h]

theorem mem_retrieve_has_emb (g : Graph) (sim : List ℚ → List ℚ → ℚ)
    (q : List ℚ) (k : ℤ) (p : NodeId × ℚ) (hp : p ∈ retrieve g sim q k) :
    ∃ e, nodeEmb g p.1 = some e := by
  simp only [retrieve, selectTopResults] at hp
  have h1 := (pySlice_sublist (sortDescBy (hybridScoring g sim q
    (graphExpansion g (vectorSearch g sim q (k * 2))))) k).subset hp
  have h2 := (mem_sortDescBy p _).mp h1
  rcases hybridScoring_mem_emb g sim q _ p h2 with ⟨e, he, _, _⟩
  exact ⟨e, he⟩

theorem embedStep_content (encode : String → Option (List ℚ)) (dim : ℕ)
    (a : NodeAttrs) : (embedStep encode dim a).content = a.content := by
  simp only [embedStep]
  by_cases h : a.content.getD ("") = ""
  · simp [h]
  · rw [if_neg h]
    cases a.type with
    | none => rfl
    | some t =>
      cases encode (a.content.getD ("")) with
      | none => rfl
      | some e =>
        by_cases hd : e.length = dim
        · simp [hd]
        · simp [hd]

/-! ## Claims -/

/-- Claim C1, counterexample: in the two-node graph `gC1` with the one
edge `chunk_a → chunk_b`, `_hybrid_scoring` gives `chunk_b` the score
`0.7·1 + 0.3·(0/2) = 0.7` because `neighbors` returns only successors,
while the claimed formula — importance as the count of incident edges in
both directions over the node count — would give
`0.7·1 + 0.3·(1/2) = 0.85 ≠ 0.7`. -/
theorem c1_score_counterexample :
    hybridScoring gC1 simOne [1, 0] ["chunk_b"] = [("chunk_b", 7/10)] ∧
    (7 : ℚ)/10 * simOne [1, 0] [1, 0] +
      (3 : ℚ)/10 * ((bothDegree gC1 ("chunk_b") : ℚ) /
        ((gC1.nodes.length : ℚ))) ≠ 7/10 := by with_unfolding_all decide

/-- Claim C1, amended: every candidate that has an embedding is scored
`0.7·similarity + 0.3·importance` where `importance` is the node's
out-degree (successor count, not the both-direction degree) divided by
the node count, and a candidate without an embedding receives no score
and is absent from the scored list. -/
theorem c1_score_amended (g : Graph) (sim : List ℚ → List ℚ → ℚ)
    (q : List ℚ) (cands : List NodeId) (n : NodeId) (hn : n ∈ cands) :
    (∀ e, nodeEmb g n = some e →
      (n, (7 : ℚ)/10 * sim q e + (3 : ℚ)/10 * importance g n) ∈
        hybridScoring g sim q cands) ∧
    (nodeEmb g n = none → ∀ s, (n, s) ∉ hybridScoring g sim q cands) := by
  constructor
  · intro e he
    exact hybridScoring_mem_of g sim q n e he cands hn
  · intro hnone s
    exact hybridScoring_not_mem g sim q n hnone s cands

/-- Claim C1, witness: the amended theorem applied to `gC1`. -/
theorem c1_score_witness :
    ("chunk_b" ∈ (["chunk_b"] : List NodeId)) ∧
    nodeEmb gC1 ("chunk_b") = some [1, 0] ∧
    ("chunk_b", (7 : ℚ)/10 * simOne [1, 0] [1, 0] +
      (3 : ℚ)/10 * importance gC1 ("chunk_b")) ∈
      hybridScoring gC1 simOne [1, 0] ["chunk_b"] := by
  have h := c1_score_amended gC1 simOne [1, 0] ["chunk_b"] ("chunk_b")
    (by decide)
  exact ⟨by decide, by decide, h.1 [1, 0] (by decide)⟩

/-- Claim C2, counterexample: in `gTie` (nodes inserted in the order
`chunk_b`, `chunk_a`, both with the query's embedding) the two hybrid
scores tie at `0.7` and `retrieve` returns `chunk_b` before `chunk_a`:
the ordering is neither strictly decreasing nor tie-broken by ascending
node id — Python's `sorted` is stable over the arbitrary iteration
order of the candidate `set`, and no id tie-break exists in the code. -/
theorem c2_order_counterexample :
    retrieve gTie simOne [1, 0] 2 =
      [("chunk_b", 7/10), ("chunk_a", 7/10)] ∧
    ("chunk_a" : String) < "chunk_b" := by with_unfolding_all decide

/-- Claim C2, amended: for `top_k ≥ 0` the result length is at most
`top_k` and adjacent scores are non-increasing (equal scores are
possible and keep the scored list's order; there is no node-id
tie-break). -/
theorem c2_order_amended (g : Graph) (sim : List ℚ → List ℚ → ℚ)
    (q : List ℚ) (k : ℤ) (hk : 0 ≤ k) :
    (retrieve g sim q k).length ≤ k.toNat ∧
    scoresNonIncr (retrieve g sim q k) = true := by
  constructor
  · simp only [retrieve, selectTopResults]
    exact length_pySlice_le _ k hk
  · simp only [retrieve, selectTopResults]
    exact scoresNonIncr_of_pairwise _
      ((pairwise_sortDescBy _).sublist (pySlice_sublist _ k))

/-- Claim C2, witness: the amended theorem applied to `gTie`. -/
theorem c2_order_witness :
    ((0 : ℤ) ≤ 2) ∧
    (retrieve gTie simOne [1, 0] 2).length ≤ (2 : ℤ).toNat ∧
    scoresNonIncr (retrieve gTie simOne [1, 0] 2) = true := by
  have h := c2_order_amended gTie simOne [1, 0] 2 (by decide)
  exact ⟨by decide, h.1, h.2⟩

/-- Claim C4, counterexample: in `gC4` the node `chunk_b` is a
predecessor (in-neighbor) of the sole seed `chunk_a`, yet
`_graph_expansion` returns only `[chunk_a]`: `DiGraph.neighbors` yields
successors only, so one-hop predecessors never enter the candidate
pool, contradicting the claimed either-direction union. -/
theorem c4_expansion_counterexample :
    graphExpansion gC4 [("chunk_a", (1 : ℚ))] = ["chunk_a"] ∧
    "chunk_b" ∈ predecessors gC4 ("chunk_a") ∧
    "chunk_b" ∉ graphExpansion gC4 [("chunk_a", (1 : ℚ))] := by decide

/-- Claim C4, amended: the candidate pool scored by `retrieve` is
exactly the seed set united with the out-neighbors (successors only) of
the seeds. -/
theorem c4_expansion_amended (g : Graph) (seeds : List (NodeId × ℚ))
    (x : NodeId) :
    x ∈ graphExpansion g seeds ↔
      (∃ p ∈ seeds, p.1 = x) ∨ ∃ p ∈ seeds, x ∈ successors g p.1 := by
  unfold graphExpansion
  rw [mem_foldl_succ, mem_foldl_insertNew_fst]
  simp

/-- Claim C3: `_add_relationships` performs no endpoint check, and
networkx `add_edge` silently creates missing endpoints.  Building from
empty chunk and entity lists with the single dangling relationship
`relC3 = (s1, t1, related)` yields a graph with the edge present and
two attribute-less phantom nodes — the claimed behaviour (edge dropped,
`DanglingEdge` warning, no new nodes) does not happen; no warning
machinery exists in `_add_relationships` at all. -/
theorem c3_dangling_edge_bug :
    buildGraph [] [] [relC3] encNone 768 =
      ⟨[("chunk_s1", NodeAttrs.empty), ("chunk_t1", NodeAttrs.empty)],
       [("chunk_s1", "chunk_t1", ⟨some ("related"), some 1⟩)]⟩ := by
  with_unfolding_all decide

/-- Claim C5: the builder tags chunk nodes `type="chunk"`, but the
assembler's priority map and grouping only recognize `"text"`; a built
chunk node therefore sorts at priority 999 (not 1) and is dropped from
every group, so its content never reaches the context's text section
even with positive relevance (`1 > 0`) and an ample budget (1000 token
budget vs an 11-character item). -/
theorem c5_chunk_type_bug :
    assembleContext g5 simOne ctLen ["chunk_1"] [1, 0] 1000 =
      some (emptyCtx, g5post) ∧
    (0 : ℚ) < relevanceOf simOne [1, 0]
      ((g5.attr? ("chunk_1")).getD NodeAttrs.empty) ∧
    typePriority (some tyChunk) = 999 ∧ emptyCtx.text = [] := by
  with_unfolding_all decide

/-- Claim C6: whenever `assemble_context` returns with a non-negative
`max_tokens`, the reported `total_tokens` is exactly the token sum of
the packed text items and never exceeds `max_tokens`. -/
theorem c6_budget_theorem (g : Graph) (asim : List ℚ → List ℚ → ℚ)
    (ct : String → ℕ) (cands : List NodeId) (q : List ℚ) (mt : ℤ)
    (c : Context) (g' : Graph) (h0 : 0 ≤ mt)
    (h : assembleContext g asim ct cands q mt = some (c, g')) :
    c.total_tokens = tokensSum ct c.text ∧ c.total_tokens ≤ mt := by
  simp only [assembleContext] at h
  split at h
  · exact Option.noConfusion h
  · rename_i nd g1 hget
    split at h
    · exact Option.noConfusion h
    · rename_i c0 hasm
      rw [Option.some.injEq, Prod.mk.injEq] at h
      obtain ⟨h1, h2⟩ := h
      subst h1
      simp only [assembleTokens] at hasm
      split at hasm
      · exact Option.noConfusion hasm
      · rename_i texts rem hpack
        split at hasm
        · exact Option.noConfusion hasm
        · rename_i tabs htabs
          split at hasm
          · exact Option.noConfusion hasm
          · rename_i figs hfigs
            split at hasm
            · exact Option.noConfusion hasm
            · rename_i ents hents
              rw [Option.some.injEq] at hasm
              subst hasm
              have HP := packText_spec _ ct _ mt h0 texts rem hpack
              constructor
              · show mt - rem = tokensSum ct texts
                exact HP.2
              · show mt - rem ≤ mt
                have := HP.1
                omega

/-- Claim C6, witness: the theorem applied to the one-text-node graph
`g6` with budget 100. -/
theorem c6_budget_witness :
    ((0 : ℤ) ≤ 100) ∧ c6ctx.total_tokens = tokensSum ctLen c6ctx.text ∧
    c6ctx.total_tokens ≤ 100 := by
  have h := c6_budget_theorem g6 simOne ctLen ["t1"] [1, 0] 100 c6ctx
    g6post (by decide) (by with_unfolding_all decide)
  exact ⟨by decide, h.1, h.2⟩

/-- Claim C7, counterexample: one `assemble_context` call over `g5`
returns a graph different from `g5` — `_get_nodes_data` executes
`data["id"] = node` and `_sort_nodes` executes
`node["relevance_score"] = ...` on the live networkx attribute dicts,
so the graph is mutated, contradicting the claimed immutability. -/
theorem c7_no_mutation_counterexample :
    (assembleContext g5 simOne ctLen ["chunk_1"] [1, 0] 1000).map
      (fun p => p.2) ≠ some g5 := by
  with_unfolding_all decide

/-- Claim C7, amended: `retrieve` only reads the graph (its model is a
pure function of the graph value), while `assemble_context` mutates
exactly the `id` and `relevance_score` keys of the resolved candidates'
attribute records: edges, node ids in order, records of non-candidate
nodes, and every other attribute field are unchanged. -/
theorem c7_no_mutation_amended (g : Graph) (asim : List ℚ → List ℚ → ℚ)
    (ct : String → ℕ) (cands : List NodeId) (q : List ℚ) (mt : ℤ)
    (c : Context) (g' : Graph)
    (h : assembleContext g asim ct cands q mt = some (c, g')) :
    assembleFrame cands g g' := by
  simp only [assembleContext] at h
  split at h
  · exact Option.noConfusion h
  · rename_i nd g1 hget
    split at h
    · exact Option.noConfusion h
    · rename_i c0 hasm
      rw [Option.some.injEq, Prod.mk.injEq] at h
      obtain ⟨h1, h2⟩ := h
      subst h2
      obtain ⟨hnd, hframe⟩ := getNodesData_frame cands g nd g1 hget
      subst hnd
      exact frame_trans hframe (setRelevance_frame asim q _ g1)

/-- Claim C7, witness: the amended theorem applied to `g5`, extracting
that the scaffold is preserved and an unrelated node id's record is
untouched. -/
theorem c7_no_mutation_witness :
    preservesScaffold g5 g5post ∧
    Graph.attr? g5post ("zzz") = Graph.attr? g5 ("zzz") := by
  have h := c7_no_mutation_amended g5 simOne ctLen ["chunk_1"] [1, 0] 1000
    emptyCtx g5post (by with_unfolding_all decide)
  exact ⟨h.1, h.2.1 ("zzz") (by decide)⟩

/-- Claim C8: with a negative `top_k`, Python slicing `[:top_k]` keeps
all but the last `|top_k|` entries instead of truncating to nothing; on
the four-node graph `g8`, `retrieve(query, -1)` returns one scored
result instead of the empty sequence the claim requires for
`top_k ≤ 0`. -/
theorem c8_negative_topk_bug :
    retrieve g8 simOne [1, 0] (-1) = [("chunk_a", 7/10)] ∧
    retrieve g8 simOne [1, 0] (-1) ≠ [] := by
  with_unfolding_all decide

/-- Claim C9, counterexample: with the stale id `missing` among the
candidates, `assemble_context` fails (the `graph.nodes[node]` lookup
raises `KeyError`) instead of skipping the id and returning a context
assembled from `chunk_1` alone. -/
theorem c9_missing_candidate_counterexample :
    assembleContext g5 simOne ctLen ["chunk_1", "missing"] [1, 0] 100 =
      none := by
  with_unfolding_all decide

/-- Claim C9, amended: a candidate id that names no node in the graph
makes the whole `assemble_context` call fail with a `KeyError` (model:
`none`); it is not skipped and no context is returned. -/
theorem c9_missing_candidate_amended (g : Graph)
    (asim : List ℚ → List ℚ → ℚ) (ct : String → ℕ) (cands : List NodeId)
    (q : List ℚ) (mt : ℤ) (c : NodeId) (h1 : c ∈ cands)
    (h2 : g.attr? c = none) :
    assembleContext g asim ct cands q mt = none := by
  simp only [assembleContext]
  rw [getNodesData_missing cands g c h1 h2]

/-- Claim C9, witness: the amended theorem applied to `g5` and the
stale candidate id `nope`. -/
theorem c9_missing_candidate_witness :
    ("nope" ∈ (["nope"] : List NodeId)) ∧ Graph.attr? g5 ("nope") = none ∧
    assembleContext g5 simOne ctLen ["nope"] [1, 0] 100 = none := by
  refine ⟨by decide, by decide, ?_⟩
  exact c9_missing_candidate_amended g5 simOne ctLen ["nope"] [1, 0] 100
    ("nope") (by decide) (by decide)

/-- Claim C10: a node of a built graph whose `content` is empty or
missing gets no embedding from `_generate_embeddings` (the empty-content
guard skips it, and no earlier builder phase ever attaches one), and
since both `_vector_search` and `_hybrid_scoring` drop embedding-less
nodes, such a node never appears in any `retrieve` result. -/
theorem c10_empty_content_theorem (chunks : List ChunkRec)
    (entities : List EntityRec) (rels : List RelRec)
    (encode : String → Option (List ℚ)) (dim : ℕ)
    (sim : List ℚ → List ℚ → ℚ) (q : List ℚ) (k : ℤ) (n : NodeId)
    (a : NodeAttrs)
    (h1 : (buildGraph chunks entities rels encode dim).attr? n = some a)
    (h2 : a.content.getD ("") = "") :
    a.embedding = none ∧
      n ∉ (retrieve (buildGraph chunks entities rels encode dim)
        sim q k).map Prod.fst := by
  have hphase : ∀ p ∈ (addRelationships (addEntityNodes
      (addChunkNodes ⟨[], []⟩ chunks) entities) rels).nodes,
      p.2.embedding = none :=
    emb_none_addRelationships rels _
      (emb_none_addEntityNodes entities _
        (emb_none_addChunkNodes chunks ⟨[], []⟩
          (by intro p hp; simp at hp)))
  have h1' := h1
  rw [show buildGraph chunks entities rels encode dim =
      generateEmbeddings (addRelationships (addEntityNodes
        (addChunkNodes ⟨[], []⟩ chunks) entities) rels) encode dim
      from rfl, attr?_generateEmbeddings] at h1'
  rcases Option.map_eq_some'.mp h1' with ⟨a0, ha0, hstep⟩
  rw [← hstep, embedStep_content] at h2
  have heq : a = a0 := by
    rw [← hstep, embedStep_empty_content encode dim a0 h2]
  subst heq
  have hnone : a.embedding = none := by
    rw [show a = embedStep encode dim a from
      (embedStep_empty_content encode dim a h2).symm] at hstep
    exact hphase (n, a) (lookupAttrs_mem _ n a ha0)
  refine ⟨hnone, ?_⟩
  intro hmem
  rcases List.mem_map.mp hmem with ⟨p, hp, hfst⟩
  rcases mem_retrieve_has_emb _ sim q k p hp with ⟨e, he⟩
  simp only [nodeEmb] at he
  rw [hfst, h1] at he
  simp only [Option.getD_some] at he
  rw [hnone] at he
  exact Option.noConfusion he

/-- Claim C10, witness: the theorem applied to a build over the single
empty-text chunk record `c10chunk`. -/
theorem c10_empty_content_witness :
    (buildGraph [c10chunk] [] [] encNone 2).attr? ("chunk_1") = some a10 ∧
    a10.content.getD ("") = "" ∧ a10.embedding = none ∧
    "chunk_1" ∉ (retrieve (buildGraph [c10chunk] [] [] encNone 2) simOne
      [1, 0] 5).map Prod.fst := by
  have h := c10_empty_content_theorem [c10chunk] [] [] encNone 2 simOne
    [1, 0] 5 ("chunk_1") a10 (by with_unfolding_all decide)
    (by decide)
  exact ⟨by with_unfolding_all decide, by decide, h.1, h.2⟩
